import Mathlib

/-!
Verification of the stream-building / section-segmentation core of the
Visual-Manual ingestion pipeline.

The development shallowly embeds the two modules that the verified claims
concern:
  * `src/legacy/stream_builder_legacy.py` — `PDFStreamLoader` (text/image
    extraction + noise filter + vector-figure recovery), `SectionSegmenter`
    (TOC flattening, header detection, stream segmentation);
  * `src/legacy/hybrid_ingest.py` — `HybridPageIngestor._map_pages_to_sections`
    (page → section forward fill).

Strings are modelled as `List Char`; vertical coordinates (PDF points,
floats in the source) as `ℚ`; the page-addressable document (PyMuPDF
handle) as an abstract record of its geometry and a fallible renderer,
where `none` models a raised exception.  Python regexes are embedded as
the equivalent greedy parsers (for each of the four patterns involved,
greedy matching coincides with backtracking regex semantics because every
repeated class is followed by a character it cannot match).
-/

namespace VisualManual

/-! ## Character classes (Python `str.strip`, `\s`, `\d`, `[\d.]`) -/

/-- Python `\s` on the ASCII range: space, tab, newline, carriage return,
vertical tab, form feed. -/
def pyIsSpace (c : Char) : Bool :=
  c = ' ' || c = '\t' || c = '\n' || c = '\r' || c = '\x0b' || c = '\x0c'

/-- Python `str.strip()`: remove whitespace from both ends. -/
def pyStrip (s : List Char) : List Char :=
  ((s.dropWhile pyIsSpace).reverse.dropWhile pyIsSpace).reverse

/-- Character class `[\d.]` used by the TOC id regexes. -/
def isDigitOrDot (c : Char) : Bool :=
  c.isDigit || c = '.'

/-! ## Data model (`stream_builder_legacy.py`) -/

inductive ElementType where
  | text
  | image
  | header
deriving DecidableEq

/-- `StreamElement` dataclass.  `image_bytes` is opaque payload, modelled
as a number; `bbox` is `(x0, y0, x1, y1)`. -/
structure StreamElement where
  element_type : ElementType
  content : List Char
  page_num : ℕ
  y_position : ℚ
  bbox : ℚ × ℚ × ℚ × ℚ := (0, 0, 0, 0)
  image_bytes : Option ℕ := none
  section_id : Option (List Char) := none
deriving DecidableEq

/-- `TOCEntry` dataclass (flattened form; `children` live in `TOCNode`). -/
structure TOCEntry where
  title : List Char
  page : ℕ
  level : ℤ
  section_id : List Char
deriving DecidableEq

/-- The hierarchical TOC artifact (`toc_tree` JSON). -/
inductive TOCNode where
  | node (title : List Char) (page : ℕ) (level : ℤ) (children : List TOCNode)

/-! ## Embedded regex matchers -/

/-- `re.match(r"^Figure\s+\d+:", content)` as a Boolean test
(`_recover_vector_figures`). -/
def matchFigureCaption (t : List Char) : Bool :=
  match t with
  | 'F' :: 'i' :: 'g' :: 'u' :: 'r' :: 'e' :: rest =>
    let ws := rest.takeWhile pyIsSpace
    let r1 := rest.dropWhile pyIsSpace
    let ds := r1.takeWhile Char.isDigit
    let r2 := r1.dropWhile Char.isDigit
    !ws.isEmpty && !ds.isEmpty && r2.head? = some ':'
  | _ => false

/-- `re.search(r"\.\.+\s*\d+$", text)` as a Boolean test
(`_detect_section_header`, dot-leader rejection).  Matched from the right:
a nonempty digit run at the end, optional whitespace before it, and at
least two dots before that. -/
def dotLeaderSuffix (s : List Char) : Bool :=
  let r := s.reverse
  let digs := r.takeWhile Char.isDigit
  let r1 := r.dropWhile Char.isDigit
  let r2 := r1.dropWhile pyIsSpace
  !digs.isEmpty && decide (2 ≤ (r2.takeWhile (fun c => c = '.')).length)

/-- Greedy parser for the group part `(?:\.\d+)*`: consumes maximal
repetitions of a dot followed by a nonempty digit run, returns the
consumed characters and the remaining tail.  `fuel` is an upper bound on
the input length, making the recursion structural (each step consumes at
least the dot). -/
def parseGroupsF : ℕ → List Char → List Char × List Char
  | 0, rest => ([], rest)
  | _ + 1, [] => ([], [])
  | fuel + 1, c0 :: tail =>
    if c0 = '.' then
      match tail with
      | c :: tail2 =>
        if c.isDigit then
          let d := (c :: tail2).takeWhile Char.isDigit
          let p := parseGroupsF fuel ((c :: tail2).dropWhile Char.isDigit)
          ('.' :: (d ++ p.1), p.2)
        else ([], c0 :: tail)
      | [] => ([], c0 :: tail)
    else ([], c0 :: tail)

/-- Greedy parser for `\d+(?:\.\d+)*` anchored at the start: the captured
numeral string and the remaining tail, or `none` when there is no leading
digit. -/
def parseNumeral (s : List Char) : Option (List Char × List Char) :=
  let d := s.takeWhile Char.isDigit
  if d.isEmpty then none
  else
    let rest := s.dropWhile Char.isDigit
    let p := parseGroupsF rest.length rest
    some (d ++ p.1, p.2)

/-- `re.match(r"^(\d+(?:\.\d+)*)\s+\S", text)`: the captured group 1, or
`none` when the pattern does not match (`_detect_section_header`). -/
def headerCapture (s : List Char) : Option (List Char) :=
  (parseNumeral s).bind (fun p =>
    if (p.2.takeWhile pyIsSpace).isEmpty then none
    else if (p.2.dropWhile pyIsSpace).isEmpty then none
    else some p.1)

/-- `re.match(r"^([\d.]+)\s+", title)` capture for the legacy TOC loader
(`SectionSegmenter._load_toc`): the maximal leading run of digits/dots,
provided it is nonempty and followed by a whitespace character; otherwise
the full title. -/
def tocSectionId (title : List Char) : List Char :=
  let run := title.takeWhile isDigitOrDot
  let rest := title.dropWhile isDigitOrDot
  if run.isEmpty then title
  else
    match rest.head? with
    | some c => if pyIsSpace c then run else title
    | none => title

/-! ## Noise filter (`PDFStreamLoader._extract_text_blocks`) -/

/-- The `NOISE_PATTERNS` literal list. -/
def NOISE_PATTERNS : List (List Char) :=
  [("Modifications reserved").data,
   ("Data subject to change").data,
   ("Printed in Germany").data,
   ("Document number:").data,
   ("Revision_").data,
   ("| 61").data,
   ("Bosch Sensortec |").data,
   ("[TBD]").data,
   (". . . . . .").data]

/-- Python `pat in text` prefix step: does `text` start with `pat`? -/
def leadsWith : List Char → List Char → Bool
  | [], _ => true
  | _ :: _, [] => false
  | a :: as, b :: bs => a = b && leadsWith as bs

/-- Python substring containment `pat in text`. -/
def containsSub (pat : List Char) : List Char → Bool
  | [] => pat.isEmpty
  | c :: rest => leadsWith pat (c :: rest) || containsSub pat rest

/-- `any(pattern in text for pattern in NOISE_PATTERNS)`. -/
def hasNoise (text : List Char) : Bool :=
  NOISE_PATTERNS.any (fun pat => containsSub pat text)

/-- The two discard conditions of `_extract_text_blocks` applied to a
block's joined, stripped text with top coordinate `y_pos` on a page of
height `page_height`: header/footer band plus noise pattern, or short
text plus noise pattern. -/
def noiseDiscard (text : List Char) (y_pos page_height : ℚ) : Bool :=
  if (y_pos < 50 ∨ page_height - 50 < y_pos) ∧ hasNoise text then true
  else if text.length < 100 ∧ hasNoise text then true
  else false

/-! ## Vector-figure recovery (`PDFStreamLoader`) -/

/-- The page-addressable document: per-page horizontal extent
(`page.rect.x0/x1`) and a clip renderer (`page.get_pixmap`).  A render
result of `none` models a raised exception inside the `try` block of
`_take_page_snapshot`. -/
structure DocModel where
  rectX : ℕ → ℚ × ℚ
  render : ℕ → ℚ × ℚ × ℚ × ℚ → Option ℕ

/-- The `f"[SNAPSHOT:P{page_num}]"` content string. -/
def snapshotContent (page_num : ℕ) : List Char :=
  ("[SNAPSHOT:P").data ++ (Nat.repr page_num).data ++ ("]").data

/-- `PDFStreamLoader._take_page_snapshot`. -/
def takePageSnapshot (doc : DocModel) (page_num : ℕ) (caption_y : ℚ) :
    Option StreamElement :=
  let lookback_height : ℚ := 350
  let top_y := max 50 (caption_y - lookback_height)
  let bottom_y := max (top_y + 50) (caption_y - 10)
  let x0 := (doc.rectX page_num).1
  let x1 := (doc.rectX page_num).2
  let clip := (x0 + 50, top_y, x1 - 50, bottom_y)
  match doc.render page_num clip with
  | none => none
  | some b =>
    some { element_type := ElementType.image
           content := snapshotContent page_num
           page_num := page_num
           y_position := top_y
           bbox := clip
           image_bytes := some b
           section_id := none }

/-- The guard `elem.element_type == ElementType.TEXT and
re.match(r"^Figure\s+\d+:", elem.content)`. -/
def isCaptionElem (e : StreamElement) : Bool :=
  decide (e.element_type = ElementType.text) && matchFigureCaption e.content

/-- The `needs_recovery` cascade of `_recover_vector_figures`, given the
element preceding the caption in the evolving stream (if any). -/
def needsRecovery (prev : Option StreamElement) (e : StreamElement) : Bool :=
  match prev with
  | none => true
  | some p =>
    if p.page_num ≠ e.page_num then true
    else if p.element_type ≠ ElementType.image then true
    else decide (400 < e.y_position - p.y_position)

/-- Captions in a list, for the recovery-loop termination measure. -/
def captionCount (l : List StreamElement) : ℕ :=
  l.countP isCaptionElem

/-- `_recover_vector_figures`: Python iterates over `self.global_stream`
with `enumerate` while appending snapshots to the end of the very same
list, so appended snapshots are themselves visited (they are images and
never trigger).  `processed` holds the elements already visited (in list
order), `pending` the ones not yet visited.  `fuel` is an upper bound on
`2 * captionCount pending + pending.length`, which strictly decreases at
every step (a recovery step removes one caption from `pending` and adds
one non-caption image); with the fuel chosen in `recoverVectorFigures`
the base case `0` is never reached. -/
def recoverAuxF (doc : DocModel) :
    ℕ → List StreamElement → List StreamElement → List StreamElement
  | 0, processed, pending => processed ++ pending
  | _ + 1, processed, [] => processed
  | fuel + 1, processed, e :: rest =>
    if isCaptionElem e then
      if needsRecovery processed.getLast? e then
        match takePageSnapshot doc e.page_num e.y_position with
        | some snap => recoverAuxF doc fuel (processed ++ [e]) (rest ++ [snap])
        | none => recoverAuxF doc fuel (processed ++ [e]) rest
      else recoverAuxF doc fuel (processed ++ [e]) rest
    else recoverAuxF doc fuel (processed ++ [e]) rest

/-- `PDFStreamLoader._recover_vector_figures` applied to the sorted
global stream: returns the stream with recovered snapshots appended. -/
def recoverVectorFigures (doc : DocModel) (stream : List StreamElement) :
    List StreamElement :=
  recoverAuxF doc (2 * captionCount stream + stream.length) [] stream

/-- The `(page_num, y_position)` sort key comparison used by
`sorted`/`list.sort` in `PDFStreamLoader.load`. -/
def streamKeyLe (a b : StreamElement) : Bool :=
  decide (a.page_num < b.page_num ∨ (a.page_num = b.page_num ∧ a.y_position ≤ b.y_position))

/-- `PDFStreamLoader.load`, starting from the per-page extracted elements
(concatenated in page order): sort by `(page, y0)`, run the recovery
pass, sort again. -/
def load (doc : DocModel) (extracted : List StreamElement) : List StreamElement :=
  let s1 := extracted.mergeSort streamKeyLe
  let s2 := recoverVectorFigures doc s1
  s2.mergeSort streamKeyLe

/-- One recovery-plus-resort pass, for the idempotence claim. -/
def recoverAndSort (doc : DocModel) (stream : List StreamElement) : List StreamElement :=
  (recoverVectorFigures doc stream).mergeSort streamKeyLe

/-! ## TOC loading and segmentation (`SectionSegmenter`) -/

def preamble : List Char := ("_preamble").data

/-- `SectionSegmenter._detect_section_header` (the `title_map` parameter
of the source function is unused by its body and therefore omitted). -/
def detectSectionHeader (flat_toc : List TOCEntry) (text : List Char) :
    Option (List Char) :=
  let t := pyStrip text
  if 150 < t.length then none
  else if dotLeaderSuffix t then none
  else
    (headerCapture t).bind (fun potential_id =>
      if flat_toc.any (fun toc => toc.section_id = potential_id) then some potential_id
      else none)

/-- Detection step of `SectionSegmenter.segment`: only text elements are
tested for a header. -/
def detectForElement (flat_toc : List TOCEntry) (e : StreamElement) : Option (List Char) :=
  if e.element_type = ElementType.text then detectSectionHeader flat_toc e.content else none

/-- The scan of `SectionSegmenter.segment` with its `current_section_id`
state: each element is paired with the section it is assigned to, after
the in-place relabeling (`Text → Header`, `section_id` stamp). -/
def segmentAssign (flat_toc : List TOCEntry) :
    List Char → List StreamElement → List (List Char × StreamElement)
  | _, [] => []
  | cur, e :: rest =>
    match detectForElement flat_toc e with
    | some sid =>
      (sid, { e with element_type := ElementType.header, section_id := some sid }) ::
        segmentAssign flat_toc sid rest
    | none =>
      (cur, { e with section_id := some cur }) :: segmentAssign flat_toc cur rest

/-- `sections.setdefault(current_section_id, []).append(element)` on an
insertion-ordered dict, modelled as an association list. -/
def addToSection (m : List (List Char × List StreamElement)) (k : List Char)
    (e : StreamElement) : List (List Char × List StreamElement) :=
  match m with
  | [] => [(k, [e])]
  | (k', l) :: rest =>
    if k' = k then (k', l ++ [e]) :: rest else (k', l) :: addToSection rest k e

/-- `SectionSegmenter.segment`. -/
def segment (flat_toc : List TOCEntry) (stream : List StreamElement) :
    List (List Char × List StreamElement) :=
  if stream.isEmpty then []
  else (segmentAssign flat_toc preamble stream).foldl (fun m p => addToSection m p.1 p.2) []

/-- Dict lookup on the insertion-ordered section map. -/
def sectionsFind (m : List (List Char × List StreamElement)) (k : List Char) :
    Option (List StreamElement) :=
  match m with
  | [] => none
  | (k', l) :: rest => if k' = k then some l else sectionsFind rest k

mutual

/-- The recursive `flatten` of `SectionSegmenter._load_toc` (pre-order:
entry, then its children). -/
def flattenLegacyNode : TOCNode → List TOCEntry
  | TOCNode.node t p lvl cs =>
    { title := t, page := p, level := lvl, section_id := tocSectionId t } :: flattenLegacy cs

def flattenLegacy : List TOCNode → List TOCEntry
  | [] => []
  | n :: rest => flattenLegacyNode n ++ flattenLegacy rest

end

def pageLeTOC (a b : TOCEntry) : Bool :=
  decide (a.page ≤ b.page)

/-- `SectionSegmenter._load_toc`: flatten, then stable-sort by page. -/
def loadToc (tree : List TOCNode) : List TOCEntry :=
  (flattenLegacy tree).mergeSort pageLeTOC

/-! ## Hybrid ingestor page map (`HybridPageIngestor._map_pages_to_sections`) -/

structure PageEntry where
  page : ℕ
  id : List Char
deriving DecidableEq

def unknownId : List Char := ("Unknown").data

/-- `re.match(r"^([\d.]+)", item["title"])` capture, defaulting to
`"Unknown"`. -/
def hybridSecId (title : List Char) : List Char :=
  let run := title.takeWhile isDigitOrDot
  if run.isEmpty then unknownId else run

mutual

/-- The `flatten` of `_map_pages_to_sections`. -/
def flattenHybridNode : TOCNode → List PageEntry
  | TOCNode.node t p _ cs => { page := p, id := hybridSecId t } :: flattenHybrid cs

def flattenHybrid : List TOCNode → List PageEntry
  | [] => []
  | n :: rest => flattenHybridNode n ++ flattenHybrid rest

end

def pageLePE (a b : PageEntry) : Bool :=
  decide (a.page ≤ b.page)

/-- `entries.sort(key=lambda x: x["page"])` (stable). -/
def sortedEntries (tree : List TOCNode) : List PageEntry :=
  (flattenHybrid tree).mergeSort pageLePE

/-- The inner `while toc_idx < len(entries) and entries[toc_idx]["page"] <= p`
loop: consume anchors, returning the remaining anchors and the new
`last_id`. -/
def consumeAnchors : List PageEntry → List Char → ℕ → List PageEntry × List Char
  | [], last, _ => ([], last)
  | e :: rest, last, p => if e.page ≤ p then consumeAnchors rest e.id p else (e :: rest, last)

/-- The outer `for p in range(1, max_page + 1)` loop, producing the
insertion-ordered `page_map` as an association list; `p` is the page
under inspection and `n` the number of pages still to visit. -/
def fillPages : List PageEntry → List Char → ℕ → ℕ → List (ℕ × List Char)
  | _, _, _, 0 => []
  | entries, last, p, n + 1 =>
    let c := consumeAnchors entries last p
    (p, c.2) :: fillPages c.1 c.2 (p + 1) n

/-- `HybridPageIngestor._map_pages_to_sections`; `none` models the
`IndexError` the source raises on an empty flattened TOC
(`entries[-1]`).  The loop runs over pages `1 .. max_page` where
`max_page = entries[-1]["page"] + 50`. -/
def mapPagesToSections (tree : List TOCNode) : Option (List (ℕ × List Char)) :=
  let entries := sortedEntries tree
  match entries.getLast? with
  | none => none
  | some lastE => some (fillPages entries preamble 1 (lastE.page + 50))

/-- `max_toc_page`: the page of the last (greatest-page) sorted anchor. -/
def maxTocPage (tree : List TOCNode) : ℕ :=
  match (sortedEntries tree).getLast? with
  | none => 0
  | some lastE => lastE.page

/-! ## Spec-side characterizations and concrete instances used by the claims -/

/-- Modelled from the spec: the C5 `section_id` formula — "a leading run
of `\d+(\.\d+)*` followed by whitespace; if absent, `section_id :=
title`" — as a function on titles, for comparison with the source's
`tocSectionId` (whose regex is `^([\d.]+)\s+`). -/
def specSectionId (title : List Char) : List Char :=
  match parseNumeral title with
  | some (n, rest) =>
    match rest.head? with
    | some c => if pyIsSpace c then n else title
    | none => title
  | none => title

/-- The shape `(\.\d+)*`: a join of groups, each a dot followed by a
nonempty digit run. -/
def GroupsShaped (g : List Char) : Prop :=
  ∃ gs : List (List Char), g = (gs.map (fun d => '.' :: d)).flatten ∧
    ∀ d ∈ gs, d ≠ [] ∧ ∀ c ∈ d, c.isDigit = true

/-- The shape `\d+(\.\d+)*`: a nonempty digit run followed by zero or
more groups of a dot and a nonempty digit run. -/
def NumeralShaped (s : List Char) : Prop :=
  ∃ (d g : List Char), s = d ++ g ∧ d ≠ [] ∧ (∀ c ∈ d, c.isDigit = true) ∧ GroupsShaped g

/-- Declarative reading of `re.search(r"\.\.+\s*\d+$", t)`: the text ends
in two-or-more dots, then optional whitespace, then one-or-more digits. -/
def DotLeaderProp (t : List Char) : Prop :=
  ∃ (a dots ws ds : List Char),
    t = a ++ dots ++ ws ++ ds ∧ 2 ≤ dots.length ∧ (∀ c ∈ dots, c = '.') ∧
    (∀ c ∈ ws, pyIsSpace c = true) ∧ ds ≠ [] ∧ ∀ c ∈ ds, c.isDigit = true

/-- Declarative reading of `re.match(r"^(\d+(?:\.\d+)*)\s+\S", t)` with
captured group `n`: the text starts with the numeral `n`, then
one-or-more whitespace characters, then a non-whitespace character. -/
def CaptureProp (t n : List Char) : Prop :=
  NumeralShaped n ∧
  ∃ (w : List Char) (c : Char) (r : List Char),
    t = n ++ w ++ c :: r ∧ w ≠ [] ∧ (∀ x ∈ w, pyIsSpace x = true) ∧ pyIsSpace c = false

/-- The forward-fill value at page `q` given remaining anchors and the
current `last_id`. -/
def fillVal (entries : List PageEntry) (last : List Char) (q : ℕ) : List Char :=
  match (entries.takeWhile (fun e => e.page ≤ q)).getLast? with
  | none => last
  | some e => e.id

/-- Position `i` of stream `s` is not an orphan caption: if it is a
`Figure N:` text unit then it has an immediate predecessor that is an
image on the same page at most 400 units above it. -/
def noOrphanAt (s : List StreamElement) (i : ℕ) : Bool :=
  match s[i]? with
  | none => true
  | some e =>
    if isCaptionElem e then
      match i, s[i - 1]? with
      | 0, _ => false
      | _ + 1, none => false
      | _ + 1, some p =>
        decide (p.element_type = ElementType.image ∧ p.page_num = e.page_num ∧
          e.y_position - p.y_position ≤ 400)
    else true

/-- The synthetic units appended by the recovery pass during `load`. -/
def recoveredExtras (doc : DocModel) (extracted : List StreamElement) : List StreamElement :=
  (recoverVectorFigures doc (extracted.mergeSort streamKeyLe)).drop
    (extracted.mergeSort streamKeyLe).length

/-- A 40-character footer line containing a noise pattern. -/
def footerNoiseLine : List Char :=
  ("Modifications reserved").data ++ List.replicate 18 'x'

/-- A 200-character line containing a noise pattern. -/
def headerNoiseLine : List Char :=
  ("Modifications reserved").data ++ List.replicate 178 'x'

/-- A document whose renderer always succeeds. -/
def docOk : DocModel :=
  { rectX := fun _ => (0, 600), render := fun _ _ => some 0 }

/-- A document whose renderer raises on page 1 and succeeds elsewhere. -/
def docFail : DocModel :=
  { rectX := fun _ => (0, 600), render := fun p _ => if p = 1 then none else some 7 }

/-- A plain text unit between a recovered snapshot position and its
caption. -/
def helloEl : StreamElement :=
  { element_type := ElementType.text, content := ("hello").data, page_num := 1,
    y_position := 300 }

/-- An orphan figure caption on page 1. -/
def capEl : StreamElement :=
  { element_type := ElementType.text, content := ("Figure 1: x").data, page_num := 1,
    y_position := 500 }

/-- An orphan figure caption on page 2. -/
def capP2El : StreamElement :=
  { element_type := ElementType.text, content := ("Figure 2: b").data, page_num := 2,
    y_position := 500 }

/-- An image unit directly above a caption (stable configuration). -/
def imgEl : StreamElement :=
  { element_type := ElementType.image, content := ("[IMAGE:7]").data, page_num := 1,
    y_position := 100, image_bytes := some 9 }

/-- A caption 100 units below `imgEl` (stable configuration). -/
def capNearEl : StreamElement :=
  { element_type := ElementType.text, content := ("Figure 1: a").data, page_num := 1,
    y_position := 200 }

/-- The once-loaded stream of the idempotence counterexample. -/
def onceStream : List StreamElement :=
  load docOk [helloEl, capEl]

/-- The TOC tree of the C6 example: anchors at page 5 (id `2.1`) and
page 8 (id `2.2`). -/
def tocTreeEx : List TOCNode :=
  [TOCNode.node (("2.1 Getting Started").data) 5 1 [],
   TOCNode.node (("2.2 Usage").data) 8 1 []]

/-- A one-anchor flattened TOC whose section id is `2.2.2`. -/
def tocC3 : List TOCEntry :=
  [{ title := ("2.2.2 Compiling BHy2CLI").data, page := 9, level := 3,
     section_id := ("2.2.2").data }]

/-- A text unit whose content is the `2.2.2` in-body header line. -/
def headerTextEl : StreamElement :=
  { element_type := ElementType.text, content := ("2.2.2 Compiling BHy2CLI").data,
    page_num := 9, y_position := 80 }

attribute [local semireducible] List.mergeSort List.merge Rat.sub Rat.add Rat.mul

/-! ## Helper lemmas: character classes and substring containment -/

theorem pyIsSpace_cases {c : Char} (h : pyIsSpace c = true) :
    c = ' ' ∨ c = '\t' ∨ c = '\n' ∨ c = '\r' ∨ c = '\x0b' ∨ c = '\x0c' := by
  simpa [pyIsSpace, or_assoc] using h

theorem pyIsSpace_not_digit {c : Char} (h : pyIsSpace c = true) : c.isDigit = false := by
  rcases pyIsSpace_cases h with rfl | rfl | rfl | rfl | rfl | rfl <;> decide

theorem pyIsSpace_not_digitOrDot {c : Char} (h : pyIsSpace c = true) :
    isDigitOrDot c = false := by
  rcases pyIsSpace_cases h with rfl | rfl | rfl | rfl | rfl | rfl <;> decide

theorem pyIsSpace_ne_dot {c : Char} (h : pyIsSpace c = true) : c ≠ '.' := by
  rcases pyIsSpace_cases h with rfl | rfl | rfl | rfl | rfl | rfl <;> decide

theorem leadsWith_iff (pat t : List Char) :
    leadsWith pat t = true ↔ ∃ v, t = pat ++ v := by
  induction pat generalizing t with
  | nil => simp [leadsWith]
  | cons a as ih =>
    cases t with
    | nil => simp [leadsWith]
    | cons b bs =>
      simp only [leadsWith, Bool.and_eq_true, decide_eq_true_eq, ih, List.cons_append]
      constructor
      · rintro ⟨rfl, v, rfl⟩
        exact ⟨v, rfl⟩
      · rintro ⟨v, h⟩
        injection h with h1 h2
        exact ⟨h1.symm, v, h2⟩

theorem containsSub_iff (pat t : List Char) :
    containsSub pat t = true ↔ ∃ u v, t = u ++ pat ++ v := by
  induction t with
  | nil =>
    simp only [containsSub, List.isEmpty_iff]
    constructor
    · rintro rfl
      exact ⟨[], [], rfl⟩
    · rintro ⟨u, v, h⟩
      rcases List.append_eq_nil.mp (List.append_eq_nil.mp h.symm).1 with ⟨-, h2⟩
      exact h2
  | cons c rest ih =>
    simp only [containsSub, Bool.or_eq_true, leadsWith_iff, ih]
    constructor
    · rintro (⟨v, h⟩ | ⟨u, v, rfl⟩)
      · exact ⟨[], v, by simpa using h⟩
      · exact ⟨c :: u, v, rfl⟩
    · rintro ⟨u, v, h⟩
      cases u with
      | nil =>
        left
        exact ⟨v, by simpa using h⟩
      | cons x u' =>
        right
        injection h with h1 h2
        exact ⟨u', v, h2⟩

theorem hasNoise_iff (t : List Char) :
    hasNoise t = true ↔ ∃ pat ∈ NOISE_PATTERNS, ∃ u v, t = u ++ pat ++ v := by
  simp only [hasNoise, List.any_eq_true, containsSub_iff]

/-! ## C9 -/

/-- C9: segmenting the empty stream returns the empty section map — no
`"_preamble"` key (or any other key) is created. -/
theorem C9_segment_empty (flat_toc : List TOCEntry) : segment flat_toc [] = [] := rfl

/-! ## C10 -/

/-- C10: in the page-classifier path, a TOC entry whose title does not
begin with a digit or a dot is flattened with section id `"Unknown"`
rather than its full title. -/
theorem C10_hybrid_unknown (title : List Char) (page : ℕ) (lvl : ℤ)
    (children : List TOCNode)
    (h : title.head?.all (fun c => !(c.isDigit || c = '.')) = true) :
    hybridSecId title = unknownId ∧
    flattenHybridNode (TOCNode.node title page lvl children) =
      { page := page, id := unknownId } :: flattenHybrid children := by
  have hrun : title.takeWhile isDigitOrDot = [] := by
    cases title with
    | nil => rfl
    | cons c cs =>
      have hc : isDigitOrDot c = false := by simpa [isDigitOrDot, Option.all] using h
      simp [List.takeWhile_cons, hc]
  constructor
  · simp [hybridSecId, hrun]
  · simp [flattenHybridNode, hybridSecId, hrun]

/-- Witness for C10 at the concrete title `"Introduction"`. -/
theorem C10_witness :
    hybridSecId (("Introduction").data) = unknownId ∧
    flattenHybridNode (TOCNode.node (("Introduction").data) 2 1 []) =
      { page := 2, id := unknownId } :: flattenHybrid [] :=
  C10_hybrid_unknown (("Introduction").data) 2 1 [] (by decide)

/-! ## C7 -/

set_option maxRecDepth 40000 in
/-- C7: a text block is discarded by the noise filter iff it is in the
header band (`y0 < 50`) or footer band (`y0 > page_height − 50`) and
contains a configured noise substring, or it is shorter than 100
characters and contains a noise substring; consequently a 40-character
footer-band line with a noise substring is dropped, a 200-character
header-band line with the substring is dropped, and a 200-character
body-band line with the substring is retained. -/
theorem C7_noise_filter :
    (∀ (text : List Char) (y0 ph : ℚ),
      noiseDiscard text y0 ph = true ↔
        (((y0 < 50 ∨ y0 > ph - 50) ∧ ∃ pat ∈ NOISE_PATTERNS, ∃ u v, text = u ++ pat ++ v) ∨
         (text.length < 100 ∧ ∃ pat ∈ NOISE_PATTERNS, ∃ u v, text = u ++ pat ++ v)))
    ∧ footerNoiseLine.length = 40 ∧ noiseDiscard footerNoiseLine 760 800 = true
    ∧ headerNoiseLine.length = 200 ∧ noiseDiscard headerNoiseLine 10 800 = true
    ∧ noiseDiscard headerNoiseLine 400 800 = false := by
  refine ⟨?_, by decide, by decide, by decide, by decide, by decide⟩
  intro text y0 ph
  rw [← hasNoise_iff]
  unfold noiseDiscard
  split_ifs with h1 h2
  · simpa using Or.inl h1
  · simpa using Or.inr h2
  · simp only [Bool.false_eq_true, false_iff]
    rintro (h | h)
    · exact h1 h
    · exact h2 h

/-! ## C5 -/

/-- C5 (amended): for every TOC entry, the flattened anchor's
`section_id` equals the title's maximal leading run of digits and dots
(`[\d.]+`) whenever that run is nonempty and followed by a whitespace
character, and equals the full title string otherwise.  (The source
regex is `^([\d.]+)\s+`, not `^(\d+(\.\d+)*)\s+`.) -/
theorem C5_toc_section_id (title : List Char) :
    (∀ (run : List Char) (w : Char) (rest : List Char),
       title = run ++ w :: rest → run ≠ [] → (∀ c ∈ run, isDigitOrDot c = true) →
       pyIsSpace w = true → tocSectionId title = run)
    ∧ ((¬ ∃ (run : List Char) (w : Char) (rest : List Char),
          title = run ++ w :: rest ∧ run ≠ [] ∧ (∀ c ∈ run, isDigitOrDot c = true) ∧
          pyIsSpace w = true) → tocSectionId title = title) := by
  constructor
  · rintro run w rest rfl hne hall hw
    have hw' : isDigitOrDot w = false := pyIsSpace_not_digitOrDot hw
    have htw : (run ++ w :: rest).takeWhile isDigitOrDot = run := by
      rw [List.takeWhile_append_of_pos hall, List.takeWhile_cons_of_neg (by simp [hw'])]
      simp
    have hdw : (run ++ w :: rest).dropWhile isDigitOrDot = w :: rest := by
      rw [List.dropWhile_append_of_pos hall, List.dropWhile_cons_of_neg (by simp [hw'])]
    simp only [tocSectionId, htw, hdw, List.head?_cons]
    rw [if_neg (by simpa [List.isEmpty_iff] using hne), if_pos hw]
  · intro hno
    by_cases hrun : (title.takeWhile isDigitOrDot).isEmpty = true
    · simp only [tocSectionId]
      rw [if_pos hrun]
    · cases hdw : (title.dropWhile isDigitOrDot).head? with
      | none =>
        simp only [tocSectionId]
        rw [if_neg hrun, hdw]
      | some c =>
        by_cases hc : pyIsSpace c = true
        · exfalso
          apply hno
          obtain ⟨tail, hdw'⟩ : ∃ tail, title.dropWhile isDigitOrDot = c :: tail := by
            cases h' : title.dropWhile isDigitOrDot with
            | nil => rw [h'] at hdw; cases hdw
            | cons x xs =>
              rw [h'] at hdw
              injection hdw with hx
              exact ⟨xs, by rw [hx]⟩
          refine ⟨title.takeWhile isDigitOrDot, c, tail, ?_,
            by simpa [List.isEmpty_iff] using hrun, ?_, hc⟩
          · rw [← hdw', List.takeWhile_append_dropWhile]
          · intro x hx
            exact List.mem_takeWhile_imp hx
        · simp only [tocSectionId]
          rw [if_neg hrun, hdw]
          simp [hc]

/-- C5 counterexample: for the TOC title `"2. Foo"` the source assigns
section id `"2."`, while the claim's formula (no `\d+(\.\d+)*` run
followed by whitespace exists) requires the full title. -/
theorem C5_counterexample :
    (loadToc [TOCNode.node (("2. Foo").data) 3 1 []]).map TOCEntry.section_id =
      [("2.").data] ∧
    specSectionId (("2. Foo").data) = ("2. Foo").data ∧
    ("2.").data ≠ ("2. Foo").data := by
  refine ⟨by decide, by decide, by decide⟩

/-- Witness for C5 at the concrete title `"2.2.2 Compiling BHy2CLI"`. -/
theorem C5_witness :
    tocSectionId (("2.2.2 Compiling BHy2CLI").data) = ("2.2.2").data :=
  (C5_toc_section_id (("2.2.2 Compiling BHy2CLI").data)).1 (("2.2.2").data) ' '
    (("Compiling BHy2CLI").data) (by decide) (by decide) (by decide) (by decide)

/-! ## Recovery-pass structure lemmas -/

theorem takePageSnapshot_isImage {doc : DocModel} {p : ℕ} {y : ℚ} {s : StreamElement}
    (h : takePageSnapshot doc p y = some s) : s.element_type = ElementType.image := by
  simp only [takePageSnapshot] at h
  split at h
  · exact Option.noConfusion h
  · cases h
    rfl

theorem recoverAuxF_shape (doc : DocModel) :
    ∀ (fuel : ℕ) (processed pending : List StreamElement),
      ∃ extra, recoverAuxF doc fuel processed pending = processed ++ pending ++ extra ∧
        ∀ e ∈ extra, e.element_type = ElementType.image := by
  intro fuel
  induction fuel with
  | zero =>
    intro proc pend
    exact ⟨[], by simp [recoverAuxF], by simp⟩
  | succ f ih =>
    intro proc pend
    cases pend with
    | nil => exact ⟨[], by simp [recoverAuxF], by simp⟩
    | cons e rest =>
      by_cases hcap : isCaptionElem e = true
      · by_cases hneed : needsRecovery proc.getLast? e = true
        · cases hsnap : takePageSnapshot doc e.page_num e.y_position with
          | some snap =>
            obtain ⟨extra, hx, himg⟩ := ih (proc ++ [e]) (rest ++ [snap])
            refine ⟨snap :: extra, ?_, ?_⟩
            · simp only [recoverAuxF, hcap, hneed, hsnap, if_true]
              rw [hx]
              simp
            · intro x hx'
              rcases List.mem_cons.mp hx' with rfl | hx'
              · exact takePageSnapshot_isImage hsnap
              · exact himg x hx'
          | none =>
            obtain ⟨extra, hx, himg⟩ := ih (proc ++ [e]) rest
            refine ⟨extra, ?_, himg⟩
            simp only [recoverAuxF, hcap, hneed, hsnap, if_true]
            rw [hx]
            simp
        · obtain ⟨extra, hx, himg⟩ := ih (proc ++ [e]) rest
          refine ⟨extra, ?_, himg⟩
          simp only [recoverAuxF, hcap, if_true]
          rw [if_neg hneed, hx]
          simp
      · obtain ⟨extra, hx, himg⟩ := ih (proc ++ [e]) rest
        refine ⟨extra, ?_, himg⟩
        simp only [recoverAuxF]
        rw [if_neg hcap, hx]
        simp

theorem recoverVectorFigures_shape (doc : DocModel) (stream : List StreamElement) :
    ∃ extra, recoverVectorFigures doc stream = stream ++ extra ∧
      ∀ e ∈ extra, e.element_type = ElementType.image := by
  obtain ⟨extra, h1, h2⟩ :=
    recoverAuxF_shape doc (2 * captionCount stream + stream.length) [] stream
  exact ⟨extra, by simpa [recoverVectorFigures] using h1, h2⟩

/-! ## C8 -/

/-- C8: a clip-render failure during vector-figure recovery skips that
recovery without aborting the pass: the original units (the orphan
caption among them, still a plain text unit in place) are always
preserved as a prefix and only image snapshots are appended; in the
concrete run whose renderer raises on page 1 only, no snapshot is added
for the page-1 caption while the page-2 caption is still recovered. -/
theorem C8_render_failure (doc : DocModel) (stream : List StreamElement) :
    (∃ extra, recoverVectorFigures doc stream = stream ++ extra ∧
        ∀ e ∈ extra, e.element_type = ElementType.image)
    ∧ (∀ clip, docFail.render 1 clip = none)
    ∧ recoverVectorFigures docFail [capEl, capP2El] =
        [capEl, capP2El,
         { element_type := ElementType.image, content := snapshotContent 2, page_num := 2,
           y_position := 150, bbox := (50, 150, 550, 490), image_bytes := some 7,
           section_id := none }] :=
  ⟨recoverVectorFigures_shape doc stream, fun _ => rfl, by decide⟩

/-! ## Sort-key lemmas and C1 -/

theorem streamKeyLe_trans : ∀ (a b c : StreamElement),
    streamKeyLe a b → streamKeyLe b c → streamKeyLe a c := by
  intro a b c hab hbc
  simp only [streamKeyLe, decide_eq_true_eq] at hab hbc ⊢
  rcases hab with h | ⟨h1, h2⟩ <;> rcases hbc with h' | ⟨h1', h2'⟩
  · exact Or.inl (h.trans h')
  · exact Or.inl (h1' ▸ h)
  · exact Or.inl (h1 ▸ h')
  · exact Or.inr ⟨h1.trans h1', h2.trans h2'⟩

theorem streamKeyLe_total : ∀ (a b : StreamElement), streamKeyLe a b || streamKeyLe b a := by
  intro a b
  simp only [streamKeyLe, Bool.or_eq_true, decide_eq_true_eq]
  rcases lt_trichotomy a.page_num b.page_num with h | h | h
  · exact Or.inl (Or.inl h)
  · rcases le_total a.y_position b.y_position with h' | h'
    · exact Or.inl (Or.inr ⟨h, h'⟩)
    · exact Or.inr (Or.inr ⟨h.symm, h'⟩)
  · exact Or.inr (Or.inl h)

theorem filter_tie_mergeSort (l : List StreamElement) (pg : ℕ) (y : ℚ) :
    (l.mergeSort streamKeyLe).filter
        (fun e => decide (e.page_num = pg ∧ e.y_position = y)) =
      l.filter (fun e => decide (e.page_num = pg ∧ e.y_position = y)) := by
  have hfid : (l.filter (fun e => decide (e.page_num = pg ∧ e.y_position = y))).filter
      (fun e => decide (e.page_num = pg ∧ e.y_position = y)) =
      l.filter (fun e => decide (e.page_num = pg ∧ e.y_position = y)) := by
    simp [List.filter_filter]
  have hpw : (l.filter (fun e => decide (e.page_num = pg ∧ e.y_position = y))).Pairwise
      (fun a b => streamKeyLe a b) := by
    rw [List.pairwise_iff_forall_sublist]
    intro a b hab
    have hsubset := hab.subset
    have ha := List.of_mem_filter (hsubset (show a ∈ [a, b] by simp))
    have hb := List.of_mem_filter (hsubset (show b ∈ [a, b] by simp))
    simp only [decide_eq_true_eq] at ha hb
    simp only [streamKeyLe, decide_eq_true_eq]
    exact Or.inr ⟨by rw [ha.1, hb.1], by rw [ha.2, hb.2]⟩
  have hsub : List.Sublist (l.filter (fun e => decide (e.page_num = pg ∧ e.y_position = y)))
      (l.mergeSort streamKeyLe) :=
    List.sublist_mergeSort streamKeyLe_trans streamKeyLe_total hpw (List.filter_sublist l)
  have hsub2 : List.Sublist (l.filter (fun e => decide (e.page_num = pg ∧ e.y_position = y)))
      ((l.mergeSort streamKeyLe).filter (fun e => decide (e.page_num = pg ∧ e.y_position = y))) := by
    have := hsub.filter (fun e => decide (e.page_num = pg ∧ e.y_position = y))
    rwa [hfid] at this
  have hperm : List.Perm
      ((l.mergeSort streamKeyLe).filter (fun e => decide (e.page_num = pg ∧ e.y_position = y)))
      (l.filter (fun e => decide (e.page_num = pg ∧ e.y_position = y))) :=
    (List.mergeSort_perm l streamKeyLe).filter _
  exact (hsub2.eq_of_length hperm.length_eq.symm).symm

/-- C1: the stream returned by `load` is totally ordered by `(page, y0)`
ascending — earlier pages precede later pages, and within a page smaller
`y0` precedes larger — and the sort is stable: within one `(page, y0)`
tie class the original units appear first, in extraction order, followed
by the recovered synthetic units in insertion order. -/
theorem C1_load_ordering (doc : DocModel) (extracted : List StreamElement) :
    (load doc extracted).Pairwise
      (fun a b => a.page_num < b.page_num ∨
        (a.page_num = b.page_num ∧ a.y_position ≤ b.y_position))
    ∧ ∀ (pg : ℕ) (y : ℚ),
      (load doc extracted).filter (fun e => decide (e.page_num = pg ∧ e.y_position = y)) =
        extracted.filter (fun e => decide (e.page_num = pg ∧ e.y_position = y)) ++
        (recoveredExtras doc extracted).filter
          (fun e => decide (e.page_num = pg ∧ e.y_position = y)) := by
  constructor
  · have h := List.sorted_mergeSort streamKeyLe_trans streamKeyLe_total
      (recoverVectorFigures doc (extracted.mergeSort streamKeyLe))
    refine List.Pairwise.imp ?_ h
    intro a b hab
    simpa [streamKeyLe] using hab
  · intro pg y
    obtain ⟨extra, hx, -⟩ := recoverVectorFigures_shape doc (extracted.mergeSort streamKeyLe)
    have hextras : recoveredExtras doc extracted = extra := by
      rw [recoveredExtras, hx, List.drop_left]
    show ((recoverVectorFigures doc (extracted.mergeSort streamKeyLe)).mergeSort
        streamKeyLe).filter _ = _
    rw [filter_tie_mergeSort, hx, List.filter_append, filter_tie_mergeSort, hextras]

/-! ## C4 -/

theorem needsRecovery_false_of {p e : StreamElement}
    (himg : p.element_type = ElementType.image) (hpage : p.page_num = e.page_num)
    (hgap : e.y_position - p.y_position ≤ 400) :
    needsRecovery (some p) e = false := by
  show (if p.page_num ≠ e.page_num then true
    else if p.element_type ≠ ElementType.image then true
    else decide (400 < e.y_position - p.y_position)) = false
  rw [if_neg (by simp [hpage]), if_neg (by simp [himg])]
  exact decide_eq_false (not_lt.mpr hgap)

theorem recoverAuxF_no_trigger (doc : DocModel) :
    ∀ (fuel : ℕ) (processed pending : List StreamElement),
      (∀ (j : ℕ) (e : StreamElement), pending[j]? = some e → isCaptionElem e = true →
        needsRecovery ((processed ++ pending.take j).getLast?) e = false) →
      recoverAuxF doc fuel processed pending = processed ++ pending := by
  intro fuel
  induction fuel with
  | zero =>
    intro proc pend _
    rfl
  | succ f ih =>
    intro proc pend h
    cases pend with
    | nil => simp [recoverAuxF]
    | cons e rest =>
      have hrest : ∀ (j : ℕ) (e' : StreamElement), rest[j]? = some e' →
          isCaptionElem e' = true →
          needsRecovery (((proc ++ [e]) ++ rest.take j).getLast?) e' = false := by
        intro j e' hj hc
        have hh := h (j + 1) e' (by simpa using hj) hc
        rw [List.take_succ_cons, List.append_cons] at hh
        exact hh
      by_cases hcap : isCaptionElem e = true
      · have hneed : needsRecovery proc.getLast? e = false := by
          have hh := h 0 e (by simp) hcap
          simpa using hh
        simp only [recoverAuxF, hcap, if_true, hneed, Bool.false_eq_true, if_false]
        rw [ih (proc ++ [e]) rest hrest]
        simp
      · simp only [recoverAuxF]
        rw [if_neg hcap, ih (proc ++ [e]) rest hrest]
        simp

/-- C4 counterexample: on the extracted stream with a plain text unit at
`(page 1, y 300)` and an orphan caption `"Figure 1: x"` at `(page 1,
y 500)`, `load` inserts one snapshot (3 units), but running the recovery
pass and re-sort a second time inserts a second identical snapshot (4
units): the text unit sits between the snapshot position `y 150` and the
caption, so the caption's predecessor is still not an image. -/
theorem C4_counterexample :
    recoverAndSort docOk onceStream ≠ onceStream ∧
    onceStream.length = 3 ∧ (recoverAndSort docOk onceStream).length = 4 :=
  ⟨by decide, by decide, by decide⟩

/-- C4 (amended): the recovery-plus-resort pass is a no-op — hence
`load`'s output is a fixed point — on every `(page, y0)`-sorted stream in
which no `"Figure N:"` text caption is orphaned, i.e. every such caption
is immediately preceded by an image unit on the same page at most 400
units above it.  In general `load`'s output need not satisfy this (see
the counterexample), so the pass is not idempotent as claimed. -/
theorem C4_recovery_idempotent (doc : DocModel) (s : List StreamElement)
    (hsorted : s.Pairwise (fun a b => streamKeyLe a b = true))
    (hstable : ∀ i, i < s.length → noOrphanAt s i = true) :
    recoverAndSort doc s = s := by
  have hrec : recoverVectorFigures doc s = s := by
    have hh := recoverAuxF_no_trigger doc (2 * captionCount s + s.length) [] s ?_
    · simpa [recoverVectorFigures] using hh
    · intro j e hj hc
      have hjlt : j < s.length := by
        by_contra hge
        rw [List.getElem?_eq_none (le_of_not_lt hge)] at hj
        cases hj
      have hno := hstable j hjlt
      simp only [noOrphanAt, hj, hc, if_true] at hno
      match j, hno with
      | 0, hno => exact absurd hno (by simp)
      | k + 1, hno =>
        cases hp : s[k]? with
        | none =>
          rw [show k + 1 - 1 = k by omega, hp] at hno
          exact absurd hno (by simp)
        | some p =>
          rw [show k + 1 - 1 = k by omega, hp] at hno
          have hprops := of_decide_eq_true hno
          have hgl : (([] : List StreamElement) ++ s.take (k + 1)).getLast? = some p := by
            rw [List.nil_append, List.getLast?_eq_getElem?, List.length_take]
            have hmin : min (k + 1) s.length = k + 1 := by omega
            rw [hmin, show k + 1 - 1 = k by omega, List.getElem?_take_of_lt (by omega), hp]
          rw [hgl]
          exact needsRecovery_false_of hprops.1 hprops.2.1 hprops.2.2
  rw [recoverAndSort, hrec, List.mergeSort_of_sorted hsorted]

/-- Witness for C4 (amended) on the stable stream of an image at
`(1, 100)` followed by its caption at `(1, 200)`. -/
theorem C4_witness : recoverAndSort docOk [imgEl, capNearEl] = [imgEl, capNearEl] :=
  C4_recovery_idempotent docOk [imgEl, capNearEl] (by decide)
    (by decide)

/-! ## C2 -/

theorem sectionsFind_addToSection (k : List Char) (e : StreamElement) :
    ∀ (m : List (List Char × List StreamElement)) (k' : List Char),
      sectionsFind (addToSection m k e) k' =
        if k = k' then some ((sectionsFind m k').getD [] ++ [e]) else sectionsFind m k' := by
  intro m
  induction m with
  | nil =>
    intro k'
    by_cases hk : k = k'
    · subst hk
      simp [addToSection, sectionsFind]
    · simp [addToSection, sectionsFind, hk]
  | cons p rest ih =>
    intro k'
    obtain ⟨k0, l⟩ := p
    by_cases h0 : k0 = k
    · subst h0
      by_cases hk : k0 = k'
      · subst hk
        simp [addToSection, sectionsFind]
      · simp [addToSection, sectionsFind, hk]
    · by_cases hk : k0 = k'
      · subst hk
        have hkk : ¬ k = k0 := fun h => h0 h.symm
        simp [addToSection, sectionsFind, h0, hkk]
      · simp only [addToSection, sectionsFind]
        rw [if_neg h0]
        simp only [sectionsFind]
        rw [if_neg hk, if_neg hk, ih k']

theorem sectionsFind_foldl :
    ∀ (asg : List (List Char × StreamElement)) (m : List (List Char × List StreamElement))
      (k : List Char),
      sectionsFind (asg.foldl (fun m p => addToSection m p.1 p.2) m) k =
        (match sectionsFind m k, (asg.filter (fun p => p.1 = k)).map Prod.snd with
         | none, [] => none
         | none, l => some l
         | some l0, l => some (l0 ++ l)) := by
  intro asg
  induction asg with
  | nil =>
    intro m k
    cases hf : sectionsFind m k <;> simp [hf]
  | cons q rest ih =>
    intro m k
    obtain ⟨k0, e⟩ := q
    simp only [List.foldl_cons]
    rw [ih (addToSection m k0 e) k, sectionsFind_addToSection]
    by_cases hk : k0 = k
    · subst hk
      have hfil : ((k0, e) :: rest).filter (fun p => p.1 = k0) =
          (k0, e) :: rest.filter (fun p => p.1 = k0) := by simp
      rw [hfil, if_pos rfl]
      cases hf : sectionsFind m k0 <;> simp [hf]
    · have hfil : ((k0, e) :: rest).filter (fun p => p.1 = k) =
          rest.filter (fun p => p.1 = k) := by simp [hk]
      rw [hfil, if_neg hk]

theorem segmentAssign_length (flat_toc : List TOCEntry) :
    ∀ (cur : List Char) (stream : List StreamElement),
      (segmentAssign flat_toc cur stream).length = stream.length := by
  intro cur stream
  induction stream generalizing cur with
  | nil => rfl
  | cons e rest ih =>
    cases hd : detectForElement flat_toc e <;>
      simp [segmentAssign, hd, ih]

theorem addToSection_totalLen (k : List Char) (e : StreamElement) :
    ∀ (m : List (List Char × List StreamElement)),
      ((addToSection m k e).map (fun p => p.2.length)).sum =
        (m.map (fun p => p.2.length)).sum + 1 := by
  intro m
  induction m with
  | nil => simp [addToSection]
  | cons p rest ih =>
    obtain ⟨k0, l⟩ := p
    by_cases h0 : k0 = k
    · subst h0
      simp [addToSection]
      omega
    · simp [addToSection, h0, ih]
      omega

theorem foldl_addToSection_totalLen :
    ∀ (asg : List (List Char × StreamElement)) (m : List (List Char × List StreamElement)),
      (((asg.foldl (fun m p => addToSection m p.1 p.2) m).map (fun p => p.2.length)).sum) =
        (m.map (fun p => p.2.length)).sum + asg.length := by
  intro asg
  induction asg with
  | nil => intro m; simp
  | cons q rest ih =>
    intro m
    simp only [List.foldl_cons, List.length_cons]
    rw [ih, addToSection_totalLen]
    omega

theorem segmentAssign_detected (flat_toc : List TOCEntry) :
    ∀ (stream : List StreamElement) (cur : List Char) (j : ℕ) (e : StreamElement)
      (k : List Char),
      stream[j]? = some e → detectForElement flat_toc e = some k →
      (segmentAssign flat_toc cur stream)[j]? =
        some (k, { e with element_type := ElementType.header, section_id := some k }) := by
  intro stream
  induction stream with
  | nil =>
    intro cur j e k hj
    simp at hj
  | cons e0 rest ih =>
    intro cur j e k hj hd
    cases j with
    | zero =>
      simp only [List.getElem?_cons_zero, Option.some.injEq] at hj
      subst hj
      simp [segmentAssign, hd]
    | succ j' =>
      simp only [List.getElem?_cons_succ] at hj
      cases hd0 : detectForElement flat_toc e0 <;>
        simpa [segmentAssign, hd0] using ih _ j' e k hj hd

/-- C2: for every input stream, `segment` distributes the stamped units
over the section map with no drops and no duplication: the list stored
under each key `k` is exactly the ordered sublist of the scan's
assignments with section `k` (so each unit lands in exactly one section,
in stream order), the section lists' lengths sum to the input length, and
a unit on which header detection fires is relabeled `Header`, stamped
with the detected id, and assigned to the section it opens. -/
theorem C2_segmentation (flat_toc : List TOCEntry) (stream : List StreamElement) :
    (∀ k, sectionsFind (segment flat_toc stream) k =
      (if ((segmentAssign flat_toc preamble stream).filter (fun p => p.1 = k)).isEmpty
       then none
       else some (((segmentAssign flat_toc preamble stream).filter
              (fun p => p.1 = k)).map Prod.snd)))
    ∧ ((segment flat_toc stream).map (fun p => p.2.length)).sum = stream.length
    ∧ (∀ (cur : List Char) (j : ℕ) (e : StreamElement) (k : List Char),
        stream[j]? = some e → detectForElement flat_toc e = some k →
        (segmentAssign flat_toc cur stream)[j]? =
          some (k, { e with element_type := ElementType.header, section_id := some k })) := by
  refine ⟨?_, ?_, fun cur j e k hj hd => segmentAssign_detected flat_toc stream cur j e k hj hd⟩
  · intro k
    cases stream with
    | nil => simp [segment, segmentAssign, sectionsFind]
    | cons e rest =>
      show sectionsFind ((segmentAssign flat_toc preamble (e :: rest)).foldl
        (fun m p => addToSection m p.1 p.2) []) k = _
      rw [sectionsFind_foldl]
      cases hfil : (segmentAssign flat_toc preamble (e :: rest)).filter (fun p => p.1 = k) with
      | nil => simp [sectionsFind, hfil]
      | cons q qs => simp [sectionsFind, hfil]
  · cases stream with
    | nil => simp [segment]
    | cons e rest =>
      show (((segmentAssign flat_toc preamble (e :: rest)).foldl
          (fun m p => addToSection m p.1 p.2) []).map (fun p => p.2.length)).sum = _
      rw [foldl_addToSection_totalLen, segmentAssign_length]
      simp

/-- Witness for C2 on the one-element stream containing the `2.2.2`
header line with `tocC3` as the TOC. -/
theorem C2_witness :
    (segmentAssign tocC3 preamble [headerTextEl])[0]? =
      some ((("2.2.2").data),
        { headerTextEl with
          element_type := ElementType.header
          section_id := some (("2.2.2").data) }) :=
  (C2_segmentation tocC3 [headerTextEl]).2.2 preamble 0 headerTextEl (("2.2.2").data)
    (by decide) (by decide)

/-! ## C6 -/

theorem consumeAnchors_eq :
    ∀ (entries : List PageEntry) (last : List Char) (p : ℕ),
      consumeAnchors entries last p =
        (entries.dropWhile (fun e => e.page ≤ p), fillVal entries last p) := by
  intro entries
  induction entries with
  | nil =>
    intro last p
    simp [consumeAnchors, fillVal]
  | cons e rest ih =>
    intro last p
    by_cases hp : e.page ≤ p
    · rw [consumeAnchors, if_pos hp, ih,
        List.dropWhile_cons_of_pos (by simpa using hp)]
      have htc : (e :: rest).takeWhile (fun x => x.page ≤ p) =
          e :: rest.takeWhile (fun x => x.page ≤ p) :=
        List.takeWhile_cons_of_pos (by simpa using hp)
      have hfv : fillVal rest e.id p = fillVal (e :: rest) last p := by
        simp only [fillVal, htc]
        cases ht : rest.takeWhile (fun x => x.page ≤ p) with
        | nil => simp
        | cons x xs =>
          simp only [List.getLast?_cons_cons]
          cases hgl : (x :: xs).getLast? with
          | none => simp at hgl
          | some y => rfl
      rw [hfv]
    · have htc : (e :: rest).takeWhile (fun x : PageEntry => x.page ≤ p) = [] :=
        List.takeWhile_cons_of_neg (by simpa using hp)
      rw [consumeAnchors, if_neg hp, List.dropWhile_cons_of_neg (by simpa using hp)]
      simp [fillVal, htc]

theorem fillVal_dropWhile (entries : List PageEntry) (last : List Char) (p q : ℕ)
    (hpq : p ≤ q) :
    fillVal (entries.dropWhile (fun e => e.page ≤ p)) (fillVal entries last p) q =
      fillVal entries last q := by
  have hAq : ∀ a ∈ entries.takeWhile (fun e => e.page ≤ p),
      (fun e : PageEntry => decide (e.page ≤ q)) a = true := by
    intro a ha
    have hap := List.mem_takeWhile_imp ha
    simp only [decide_eq_true_eq] at hap ⊢
    omega
  have h2 : entries.takeWhile (fun e => e.page ≤ q) =
      entries.takeWhile (fun e => e.page ≤ p) ++
        (entries.dropWhile (fun e => e.page ≤ p)).takeWhile (fun e => e.page ≤ q) := by
    conv_lhs =>
      rw [← List.takeWhile_append_dropWhile (p := fun e : PageEntry => decide (e.page ≤ p))
        (l := entries)]
    rw [List.takeWhile_append_of_pos hAq]
  simp only [fillVal, h2, List.getLast?_append]
  cases ht : ((entries.dropWhile fun e => e.page ≤ p).takeWhile
      fun e => e.page ≤ q).getLast? <;>
    simp [ht]

theorem fillPages_lookup :
    ∀ (n : ℕ) (entries : List PageEntry) (last : List Char) (p q : ℕ),
      p ≤ q → q < p + n →
      (fillPages entries last p n).lookup q = some (fillVal entries last q) := by
  intro n
  induction n with
  | zero =>
    intro entries last p q h1 h2
    omega
  | succ n ih =>
    intro entries last p q h1 h2
    simp only [fillPages, consumeAnchors_eq]
    by_cases hq : q = p
    · subst hq
      simp [List.lookup_cons_self]
    · have hbeq : (q == p) = false := beq_false_of_ne hq
      rw [List.lookup_cons, hbeq]
      rw [ih (entries.dropWhile (fun e => e.page ≤ p)) (fillVal entries last p) (p + 1) q
        (by omega) (by omega)]
      rw [fillVal_dropWhile entries last p q h1]

theorem takeWhile_eq_filter_of_sorted (q : ℕ) :
    ∀ (entries : List PageEntry), entries.Pairwise (fun a b => pageLePE a b = true) →
      entries.takeWhile (fun e => e.page ≤ q) = entries.filter (fun e => e.page ≤ q) := by
  intro entries
  induction entries with
  | nil => simp
  | cons e rest ih =>
    intro hpw
    rcases List.pairwise_cons.mp hpw with ⟨hhead, htail⟩
    by_cases hp : e.page ≤ q
    · rw [List.takeWhile_cons_of_pos (by simpa using hp),
        List.filter_cons_of_pos (by simpa using hp), ih htail]
    · rw [List.takeWhile_cons_of_neg (by simpa using hp),
        List.filter_cons_of_neg (by simpa using hp)]
      have hnil : rest.filter (fun e => e.page ≤ q) = [] := by
        rw [List.filter_eq_nil_iff]
        intro a ha
        have hle := hhead a ha
        simp only [pageLePE, decide_eq_true_eq] at hle
        simp only [decide_eq_true_eq]
        omega
      rw [hnil]

theorem sortedEntries_sorted (tree : List TOCNode) :
    (sortedEntries tree).Pairwise (fun a b => pageLePE a b = true) := by
  show ((flattenHybrid tree).mergeSort pageLePE).Pairwise fun a b => pageLePE a b = true
  apply List.sorted_mergeSort
  · intro a b c h1 h2
    simp only [pageLePE, decide_eq_true_eq] at h1 h2 ⊢
    omega
  · intro a b
    simp only [pageLePE, Bool.or_eq_true, decide_eq_true_eq]
    omega

/-- C6: the page map is a forward fill over TOC start pages — with
`last_id` starting at `"_preamble"` and pages walked from 1 to
`max_toc_page + 50` consuming page-sorted anchors with one
non-backtracking pointer, each page `p` in range maps to the id of the
last sorted anchor whose page is at most `p` (or `"_preamble"` if none);
on anchors at page 5 (id `2.1`) and page 8 (id `2.2`), pages 1–4 map to
`"_preamble"`, pages 5–7 to `"2.1"`, and page 8 through the end of the
range to `"2.2"`. -/
theorem C6_page_forward_fill :
    (∀ (tree : List TOCNode) (m : List (ℕ × List Char)) (q : ℕ),
      mapPagesToSections tree = some m → 1 ≤ q → q ≤ maxTocPage tree + 50 →
      m.lookup q =
        some (match ((sortedEntries tree).filter (fun e => e.page ≤ q)).getLast? with
              | none => preamble
              | some e => e.id))
    ∧ mapPagesToSections tocTreeEx ≠ none
    ∧ ((mapPagesToSections tocTreeEx).getD []).lookup 1 = some preamble
    ∧ ((mapPagesToSections tocTreeEx).getD []).lookup 4 = some preamble
    ∧ ((mapPagesToSections tocTreeEx).getD []).lookup 5 = some (("2.1").data)
    ∧ ((mapPagesToSections tocTreeEx).getD []).lookup 7 = some (("2.1").data)
    ∧ ((mapPagesToSections tocTreeEx).getD []).lookup 8 = some (("2.2").data)
    ∧ ((mapPagesToSections tocTreeEx).getD []).lookup 58 = some (("2.2").data) := by
  refine ⟨?_, by decide, by decide, by decide, by decide, by decide, by decide, by decide⟩
  · intro tree m q hm h1 h2
    simp only [mapPagesToSections] at hm
    cases hlast : (sortedEntries tree).getLast? with
    | none =>
      rw [hlast] at hm
      cases hm
    | some lastE =>
      rw [hlast] at hm
      injection hm with hm
      subst hm
      have hmax : maxTocPage tree = lastE.page := by
        rw [maxTocPage, hlast]
      rw [hmax] at h2
      rw [fillPages_lookup (lastE.page + 50) (sortedEntries tree) preamble 1 q h1 (by omega)]
      simp only [fillVal, takeWhile_eq_filter_of_sorted q _ (sortedEntries_sorted tree)]

/-- Witness for C6 at page 6 of the example TOC. -/
theorem C6_witness :
    (fillPages (sortedEntries tocTreeEx) preamble 1 58).lookup 6 =
      some (match ((sortedEntries tocTreeEx).filter (fun e => e.page ≤ 6)).getLast? with
            | none => preamble
            | some e => e.id) :=
  (C6_page_forward_fill).1 tocTreeEx (fillPages (sortedEntries tocTreeEx) preamble 1 58) 6
    (by decide) (by decide) (by decide)

/-! ## C3: regex characterization lemmas -/

theorem takeWhile_append_boundary {α : Type} {p : α → Bool} {l1 l2 : List α}
    (h1 : ∀ a ∈ l1, p a = true) (h2 : ∀ c, l2.head? = some c → p c = false) :
    (l1 ++ l2).takeWhile p = l1 ∧ (l1 ++ l2).dropWhile p = l2 := by
  cases l2 with
  | nil =>
    constructor
    · rw [List.takeWhile_append_of_pos h1]
      simp
    · rw [List.dropWhile_append_of_pos h1]
      simp
  | cons c cs =>
    have hc : ¬ p c = true := by simp [h2 c rfl]
    constructor
    · rw [List.takeWhile_append_of_pos h1, List.takeWhile_cons_of_neg hc]
      simp
    · rw [List.dropWhile_append_of_pos h1, List.dropWhile_cons_of_neg hc]

theorem dropWhile_head_not {α : Type} {p : α → Bool} :
    ∀ (l : List α) (c : α), (l.dropWhile p).head? = some c → p c = false := by
  intro l
  induction l with
  | nil =>
    intro c h
    simp at h
  | cons e rest ih =>
    intro c h
    by_cases he : p e = true
    · rw [List.dropWhile_cons_of_pos he] at h
      exact ih c h
    · rw [List.dropWhile_cons_of_neg he] at h
      simp only [List.head?_cons, Option.some.injEq] at h
      subst h
      simpa using he

theorem head?_some_mem {α : Type} {l : List α} {c : α} (h : l.head? = some c) : c ∈ l := by
  cases l with
  | nil => simp at h
  | cons e rest =>
    simp only [List.head?_cons, Option.some.injEq] at h
    subst h
    simp

theorem dotLeaderSuffix_iff (t : List Char) :
    dotLeaderSuffix t = true ↔ DotLeaderProp t := by
  constructor
  · intro h
    simp only [dotLeaderSuffix, Bool.and_eq_true, Bool.not_eq_true', List.isEmpty_eq_false,
      decide_eq_true_eq] at h
    obtain ⟨hdne, hlen⟩ := h
    refine ⟨((t.reverse.dropWhile Char.isDigit).dropWhile pyIsSpace).dropWhile
        (fun c => c = '.') |>.reverse,
      (((t.reverse.dropWhile Char.isDigit).dropWhile pyIsSpace).takeWhile
        (fun c => c = '.')).reverse,
      ((t.reverse.dropWhile Char.isDigit).takeWhile pyIsSpace).reverse,
      (t.reverse.takeWhile Char.isDigit).reverse, ?_, ?_, ?_, ?_, ?_, ?_⟩
    · have h2 : t.reverse.dropWhile Char.isDigit =
          (t.reverse.dropWhile Char.isDigit).takeWhile pyIsSpace ++
            (t.reverse.dropWhile Char.isDigit).dropWhile pyIsSpace :=
        (List.takeWhile_append_dropWhile pyIsSpace _).symm
      have h3 : (t.reverse.dropWhile Char.isDigit).dropWhile pyIsSpace =
          ((t.reverse.dropWhile Char.isDigit).dropWhile pyIsSpace).takeWhile
              (fun c => c = '.') ++
            ((t.reverse.dropWhile Char.isDigit).dropWhile pyIsSpace).dropWhile
              (fun c => c = '.') :=
        (List.takeWhile_append_dropWhile _ _).symm
      have hB : t.reverse.dropWhile Char.isDigit =
          (t.reverse.dropWhile Char.isDigit).takeWhile pyIsSpace ++
            ((((t.reverse.dropWhile Char.isDigit).dropWhile pyIsSpace).takeWhile
                (fun c => c = '.')) ++
              (((t.reverse.dropWhile Char.isDigit).dropWhile pyIsSpace).dropWhile
                (fun c => c = '.'))) :=
        h2.trans (congrArg
          (fun x => (t.reverse.dropWhile Char.isDigit).takeWhile pyIsSpace ++ x) h3)
      have hfull : t.reverse = t.reverse.takeWhile Char.isDigit ++
          ((t.reverse.dropWhile Char.isDigit).takeWhile pyIsSpace ++
            ((((t.reverse.dropWhile Char.isDigit).dropWhile pyIsSpace).takeWhile
                (fun c => c = '.')) ++
              (((t.reverse.dropWhile Char.isDigit).dropWhile pyIsSpace).dropWhile
                (fun c => c = '.')))) :=
        (List.takeWhile_append_dropWhile Char.isDigit t.reverse).symm.trans
          (congrArg (fun x => t.reverse.takeWhile Char.isDigit ++ x) hB)
      have hrev := congrArg List.reverse hfull
      rw [List.reverse_reverse] at hrev
      refine hrev.trans ?_
      simp only [List.reverse_append, List.append_assoc]
    · simpa using hlen
    · intro c hc
      have := List.mem_takeWhile_imp (List.mem_reverse.mp hc)
      simpa using this
    · intro c hc
      exact List.mem_takeWhile_imp (List.mem_reverse.mp hc)
    · simpa using hdne
    · intro c hc
      exact List.mem_takeWhile_imp (List.mem_reverse.mp hc)
  · rintro ⟨a, dots, ws, ds, rfl, hdlen, hdots, hws, hdsne, hdsdig⟩
    have hrev : (a ++ dots ++ ws ++ ds).reverse =
        ds.reverse ++ (ws.reverse ++ (dots.reverse ++ a.reverse)) := by
      simp [List.reverse_append]
    have hdigs : ∀ x ∈ ds.reverse, Char.isDigit x = true := fun x hx =>
      hdsdig x (List.mem_reverse.mp hx)
    have hdotsne : dots ≠ [] := by
      intro hd
      rw [hd] at hdlen
      simp at hdlen
    have hbnd1 : ∀ c, (ws.reverse ++ (dots.reverse ++ a.reverse)).head? = some c →
        Char.isDigit c = false := by
      intro c hc
      rw [List.head?_append] at hc
      cases hwsr : ws.reverse.head? with
      | some w =>
        rw [hwsr] at hc
        simp only [Option.or_some, Option.some.injEq] at hc
        subst hc
        exact pyIsSpace_not_digit (hws w (List.mem_reverse.mp (head?_some_mem hwsr)))
      | none =>
        rw [hwsr] at hc
        simp only [Option.none_or] at hc
        rw [List.head?_append] at hc
        cases hdr : dots.reverse.head? with
        | some d =>
          rw [hdr] at hc
          simp only [Option.or_some, Option.some.injEq] at hc
          rw [← hc, hdots d (List.mem_reverse.mp (head?_some_mem hdr))]
          decide
        | none =>
          exfalso
          simp only [List.head?_eq_none_iff, List.reverse_eq_nil_iff] at hdr
          exact hdotsne hdr
    obtain ⟨htk, hdr⟩ := takeWhile_append_boundary hdigs hbnd1
    have hbnd2 : ∀ c, (dots.reverse ++ a.reverse).head? = some c → pyIsSpace c = false := by
      intro c hc
      rw [List.head?_append] at hc
      cases hdr2 : dots.reverse.head? with
      | some d =>
        rw [hdr2] at hc
        simp only [Option.or_some, Option.some.injEq] at hc
        rw [← hc, hdots d (List.mem_reverse.mp (head?_some_mem hdr2))]
        decide
      | none =>
        exfalso
        simp only [List.head?_eq_none_iff, List.reverse_eq_nil_iff] at hdr2
        exact hdotsne hdr2
    have hwsp : ∀ x ∈ ws.reverse, pyIsSpace x = true := fun x hx =>
      hws x (List.mem_reverse.mp hx)
    obtain ⟨-, hdr2⟩ := takeWhile_append_boundary hwsp hbnd2
    have hdotall : ∀ x ∈ dots.reverse, (fun c => decide (c = '.')) x = true := by
      intro x hx
      simp [hdots x (List.mem_reverse.mp hx)]
    simp only [dotLeaderSuffix, Bool.and_eq_true, Bool.not_eq_true', List.isEmpty_eq_false,
      decide_eq_true_eq]
    rw [hrev, htk, hdr, hdr2, List.takeWhile_append_of_pos hdotall]
    constructor
    · simpa using hdsne
    · rw [List.length_append, List.length_reverse]
      omega

theorem parseGroupsF_split :
    ∀ (fuel : ℕ) (l : List Char), l.length ≤ fuel →
      l = (parseGroupsF fuel l).1 ++ (parseGroupsF fuel l).2 ∧
      GroupsShaped (parseGroupsF fuel l).1 := by
  intro fuel
  induction fuel with
  | zero =>
    intro l hlen
    exact ⟨rfl, [], rfl, by simp⟩
  | succ f ih =>
    intro l hlen
    cases l with
    | nil => exact ⟨rfl, [], rfl, by simp⟩
    | cons c0 tail =>
      by_cases hc0 : c0 = '.'
      · subst hc0
        cases tail with
        | nil =>
          refine ⟨by simp [parseGroupsF], [], by simp [parseGroupsF], by simp⟩
        | cons c tail2 =>
          by_cases hc : c.isDigit = true
          · have hdlen : ((c :: tail2).dropWhile Char.isDigit).length ≤ f := by
              have h1 : ((c :: tail2).dropWhile Char.isDigit).length ≤ tail2.length := by
                rw [List.dropWhile_cons_of_pos hc]
                exact (List.dropWhile_sublist Char.isDigit).length_le
              simp only [List.length_cons] at hlen
              omega
            obtain ⟨ihs, gs', hg1, hg2⟩ := ih ((c :: tail2).dropWhile Char.isDigit) hdlen
            have hred : parseGroupsF (f + 1) ('.' :: c :: tail2) =
                ('.' :: ((c :: tail2).takeWhile Char.isDigit ++
                  (parseGroupsF f ((c :: tail2).dropWhile Char.isDigit)).1),
                 (parseGroupsF f ((c :: tail2).dropWhile Char.isDigit)).2) := by
              simp [parseGroupsF, hc]
            rw [hred]
            have hsplit : c :: tail2 = (c :: tail2).takeWhile Char.isDigit ++
                ((parseGroupsF f ((c :: tail2).dropWhile Char.isDigit)).1 ++
                 (parseGroupsF f ((c :: tail2).dropWhile Char.isDigit)).2) :=
              (List.takeWhile_append_dropWhile Char.isDigit (c :: tail2)).symm.trans
                (congrArg (fun x => (c :: tail2).takeWhile Char.isDigit ++ x) ihs)
            constructor
            · simp only [List.cons_append]
              refine congrArg (fun x => '.' :: x) ?_
              rw [List.append_assoc]
              exact hsplit
            · refine ⟨(c :: tail2).takeWhile Char.isDigit :: gs', ?_, ?_⟩
              · simp only [List.map_cons, List.flatten_cons, List.cons_append]
                rw [hg1]
              · intro d hd
                rcases List.mem_cons.mp hd with rfl | hd
                · refine ⟨?_, fun x hx => List.mem_takeWhile_imp hx⟩
                  rw [List.takeWhile_cons_of_pos hc]
                  simp
                · exact hg2 d hd
          · have hred : parseGroupsF (f + 1) ('.' :: c :: tail2) = ([], '.' :: c :: tail2) := by
              simp [parseGroupsF, hc]
            rw [hred]
            exact ⟨rfl, [], rfl, by simp⟩
      · have hred : parseGroupsF (f + 1) (c0 :: tail) = ([], c0 :: tail) := by
          simp [parseGroupsF, hc0]
        rw [hred]
        exact ⟨rfl, [], rfl, by simp⟩

theorem flatten_sfx_head_not_digit (gs : List (List Char)) {sfx : List Char}
    (hsfx : ∀ c, sfx.head? = some c → pyIsSpace c = true) :
    ∀ c, ((gs.map (fun d => '.' :: d)).flatten ++ sfx).head? = some c →
      Char.isDigit c = false := by
  intro c hc
  cases gs with
  | nil =>
    simp only [List.map_nil, List.flatten_nil, List.nil_append] at hc
    exact pyIsSpace_not_digit (hsfx c hc)
  | cons g2 gs2 =>
    simp only [List.map_cons, List.flatten_cons, List.cons_append, List.head?_cons,
      Option.some.injEq] at hc
    rw [← hc]
    decide

theorem parseGroupsF_join :
    ∀ (gs : List (List Char)) (sfx : List Char) (fuel : ℕ),
      (∀ d ∈ gs, d ≠ [] ∧ ∀ c ∈ d, c.isDigit = true) →
      (∀ c, sfx.head? = some c → pyIsSpace c = true) →
      ((gs.map (fun d => '.' :: d)).flatten ++ sfx).length ≤ fuel →
      parseGroupsF fuel ((gs.map (fun d => '.' :: d)).flatten ++ sfx) =
        ((gs.map (fun d => '.' :: d)).flatten, sfx) := by
  intro gs
  induction gs with
  | nil =>
    intro sfx fuel hg hs hlen
    simp only [List.map_nil, List.flatten_nil, List.nil_append] at hlen ⊢
    cases fuel with
    | zero =>
      cases sfx with
      | nil => rfl
      | cons c cs => simp at hlen
    | succ f =>
      cases sfx with
      | nil => rfl
      | cons c cs =>
        have hcd : ¬ c = '.' := pyIsSpace_ne_dot (hs c rfl)
        simp [parseGroupsF, hcd]
  | cons g gs' ih =>
    intro sfx fuel hg hs hlen
    obtain ⟨hgne, hgdig⟩ := hg g (by simp)
    obtain ⟨gc, gtail, rfl⟩ : ∃ gc gtail, g = gc :: gtail := by
      cases g with
      | nil => exact absurd rfl hgne
      | cons x xs => exact ⟨x, xs, rfl⟩
    cases fuel with
    | zero =>
      exfalso
      simp at hlen
    | succ f =>
      have hgc : gc.isDigit = true := hgdig gc (by simp)
      obtain ⟨htk, hdp⟩ := takeWhile_append_boundary hgdig
        (flatten_sfx_head_not_digit gs' hs)
      have htk' : (gc :: (gtail ++ ((gs'.map (fun d => '.' :: d)).flatten ++ sfx))).takeWhile
          Char.isDigit = gc :: gtail := by
        simpa [List.cons_append] using htk
      have hdp' : (gc :: (gtail ++ ((gs'.map (fun d => '.' :: d)).flatten ++ sfx))).dropWhile
          Char.isDigit = (gs'.map (fun d => '.' :: d)).flatten ++ sfx := by
        simpa [List.cons_append] using hdp
      have hfuel' : ((gs'.map (fun d => '.' :: d)).flatten ++ sfx).length ≤ f := by
        simp only [List.map_cons, List.flatten_cons, List.cons_append, List.length_cons,
          List.length_append] at hlen
        simp only [List.length_append]
        omega
      have hih := ih sfx f (fun d hd => hg d (by simp [hd])) hs hfuel'
      have hstep : parseGroupsF (f + 1)
          ((((gc :: gtail) :: gs').map (fun d => '.' :: d)).flatten ++ sfx) =
          ('.' :: ((gc :: gtail) ++
            (parseGroupsF f ((gs'.map (fun d => '.' :: d)).flatten ++ sfx)).1),
           (parseGroupsF f ((gs'.map (fun d => '.' :: d)).flatten ++ sfx)).2) := by
        simp only [List.map_cons, List.flatten_cons, List.cons_append, List.append_assoc]
        simp [parseGroupsF, hgc, htk', hdp']
      rw [hstep, hih]
      simp [List.cons_append]

theorem parseNumeral_split {s n rest : List Char} (h : parseNumeral s = some (n, rest)) :
    s = n ++ rest ∧ NumeralShaped n := by
  simp only [parseNumeral] at h
  by_cases hd : (s.takeWhile Char.isDigit).isEmpty = true
  · rw [if_pos hd] at h
    cases h
  · rw [if_neg hd] at h
    simp only [Option.some.injEq, Prod.mk.injEq] at h
    obtain ⟨hn, hrest⟩ := h
    obtain ⟨hsplit, hshape⟩ := parseGroupsF_split (s.dropWhile Char.isDigit).length
      (s.dropWhile Char.isDigit) le_rfl
    subst hn
    subst hrest
    constructor
    · refine ((List.takeWhile_append_dropWhile Char.isDigit s).symm.trans ?_)
      exact (congrArg (fun x => s.takeWhile Char.isDigit ++ x) hsplit).trans
        (List.append_assoc _ _ _).symm
    · refine ⟨s.takeWhile Char.isDigit, _, rfl, ?_, fun c hc => List.mem_takeWhile_imp hc,
        hshape⟩
      intro hnil
      exact hd (by simp [hnil])

theorem parseNumeral_of_shape {d g sfx : List Char}
    (hdne : d ≠ []) (hddig : ∀ c ∈ d, c.isDigit = true) (hgsh : GroupsShaped g)
    (hsfx : ∀ c, sfx.head? = some c → pyIsSpace c = true) :
    parseNumeral (d ++ (g ++ sfx)) = some (d ++ g, sfx) := by
  obtain ⟨gs, rfl, hgs⟩ := hgsh
  obtain ⟨htk, hdp⟩ := takeWhile_append_boundary hddig
    (flatten_sfx_head_not_digit gs hsfx)
  simp only [parseNumeral, htk, hdp]
  rw [if_neg (by simpa using hdne)]
  rw [parseGroupsF_join gs sfx _ hgs hsfx le_rfl]

theorem headerCapture_iff (t n : List Char) :
    headerCapture t = some n ↔ CaptureProp t n := by
  constructor
  · intro h
    cases hp : parseNumeral t with
    | none =>
      simp only [headerCapture, hp, Option.none_bind] at h
      exact Option.noConfusion h
    | some pr =>
      obtain ⟨n', rest⟩ := pr
      simp only [headerCapture, hp, Option.some_bind] at h
      by_cases h1 : (rest.takeWhile pyIsSpace).isEmpty = true
      · rw [if_pos h1] at h
        cases h
      · rw [if_neg h1] at h
        by_cases h2 : (rest.dropWhile pyIsSpace).isEmpty = true
        · rw [if_pos h2] at h
          cases h
        · rw [if_neg h2] at h
          injection h with h
          subst h
          obtain ⟨hsplit, hshape⟩ := parseNumeral_split hp
          obtain ⟨c, r, hcr⟩ : ∃ c r, rest.dropWhile pyIsSpace = c :: r := by
            cases hd : rest.dropWhile pyIsSpace with
            | nil =>
              rw [hd] at h2
              simp at h2
            | cons c r => exact ⟨c, r, rfl⟩
          refine ⟨hshape, rest.takeWhile pyIsSpace, c, r, ?_, ?_,
            fun x hx => List.mem_takeWhile_imp hx, ?_⟩
          · rw [hsplit, List.append_assoc, ← hcr, List.takeWhile_append_dropWhile]
          · intro hnil
            exact h1 (by simp [hnil])
          · exact dropWhile_head_not rest c (by rw [hcr]; rfl)
  · rintro ⟨⟨d, g, rfl, hdne, hddig, hgshape⟩, w, c, r, ht, hwne, hwsp, hcns⟩
    subst ht
    have hsfx : ∀ x, (w ++ c :: r).head? = some x → pyIsSpace x = true := by
      intro x hx
      cases w with
      | nil => exact absurd rfl hwne
      | cons w0 ws' =>
        simp only [List.cons_append, List.head?_cons, Option.some.injEq] at hx
        rw [← hx]
        exact hwsp w0 (by simp)
    have hpn := parseNumeral_of_shape hdne hddig hgshape hsfx
    have hbc : ∀ x, (c :: r).head? = some x → pyIsSpace x = false := by
      intro x hx
      simp only [List.head?_cons, Option.some.injEq] at hx
      rw [← hx]
      exact hcns
    obtain ⟨htw, hdw⟩ := takeWhile_append_boundary hwsp hbc
    rw [List.append_assoc, List.append_assoc]
    simp only [headerCapture, hpn, Option.some_bind, htw, hdw]
    rw [if_neg (by simpa using hwne), if_neg (by simp)]

theorem anyId_iff (flat_toc : List TOCEntry) (n : List Char) :
    flat_toc.any (fun toc => toc.section_id = n) = true ↔
      ∃ e ∈ flat_toc, e.section_id = n := by
  simp [List.any_eq_true]

/-- C3: a text unit is promoted to a header with detected id `n` iff its
stripped text has length at most 150, does not end in a dot-leader
(`\.\.+\s*\d+$`), matches `^(\d+(?:\.\d+)*)\s+\S` with captured numeral
`n`, and `n` is the `section_id` of some flattened TOC anchor; in
particular the dot-leader line `"3.7 Log Generation Commands
........................ 30"` is never detected, and `"2.2.2 Compiling
BHy2CLI"` is detected whenever some anchor has id `"2.2.2"`. -/
theorem C3_header_detection (flat_toc : List TOCEntry) (text n : List Char) :
    (detectSectionHeader flat_toc text = some n ↔
      ((pyStrip text).length ≤ 150 ∧ ¬ DotLeaderProp (pyStrip text) ∧
        CaptureProp (pyStrip text) n ∧ ∃ e ∈ flat_toc, e.section_id = n))
    ∧ detectSectionHeader flat_toc
        (("3.7 Log Generation Commands ........................ 30").data) = none
    ∧ ((∃ e ∈ flat_toc, e.section_id = ("2.2.2").data) →
        detectSectionHeader flat_toc (("2.2.2 Compiling BHy2CLI").data) =
          some (("2.2.2").data)) := by
  refine ⟨?_, ?_, ?_⟩
  · constructor
    · intro h
      by_cases hlen : 150 < (pyStrip text).length
      · simp only [detectSectionHeader, if_pos hlen] at h
        exact Option.noConfusion h
      · by_cases hdl : dotLeaderSuffix (pyStrip text) = true
        · simp only [detectSectionHeader, if_neg hlen, if_pos hdl] at h
          exact Option.noConfusion h
        · cases hc : headerCapture (pyStrip text) with
          | none =>
            simp only [detectSectionHeader, if_neg hlen, if_neg hdl, hc,
              Option.none_bind] at h
            exact Option.noConfusion h
          | some pid =>
            simp only [detectSectionHeader, if_neg hlen, if_neg hdl, hc,
              Option.some_bind] at h
            by_cases ha : flat_toc.any (fun toc => toc.section_id = pid) = true
            · rw [if_pos ha] at h
              injection h with h
              subst h
              exact ⟨by omega, fun hdlp => hdl ((dotLeaderSuffix_iff _).mpr hdlp),
                (headerCapture_iff _ _).mp hc, (anyId_iff _ _).mp ha⟩
            · rw [if_neg ha] at h
              exact Option.noConfusion h
    · rintro ⟨hlen, hndl, hcap, hany⟩
      have hc := (headerCapture_iff (pyStrip text) n).mpr hcap
      simp only [detectSectionHeader,
        if_neg (show ¬ 150 < (pyStrip text).length by omega),
        if_neg (fun hdl => hndl ((dotLeaderSuffix_iff _).mp hdl)), hc, Option.some_bind]
      rw [if_pos ((anyId_iff _ _).mpr hany)]
  · simp only [detectSectionHeader]
    rw [if_neg (by decide), if_pos (by decide)]
  · intro hany
    have ha : flat_toc.any (fun toc => toc.section_id = ("2.2.2").data) = true :=
      (anyId_iff _ _).mpr hany
    have hcap : headerCapture (pyStrip (("2.2.2 Compiling BHy2CLI").data)) =
        some (("2.2.2").data) := by decide
    simp only [detectSectionHeader, if_neg (show ¬ 150 <
        (pyStrip (("2.2.2 Compiling BHy2CLI").data)).length by decide),
      if_neg (show ¬ dotLeaderSuffix (pyStrip (("2.2.2 Compiling BHy2CLI").data)) = true
        by decide), hcap, Option.some_bind]
    rw [if_pos ha]

/-- Witness for C3 with the one-anchor TOC `tocC3`. -/
theorem C3_witness :
    detectSectionHeader tocC3 (("2.2.2 Compiling BHy2CLI").data) =
      some (("2.2.2").data) :=
  (C3_header_detection tocC3 (("2.2.2 Compiling BHy2CLI").data) (("2.2.2").data)).2.2
    ⟨{ title := ("2.2.2 Compiling BHy2CLI").data, page := 9, level := 3,
       section_id := ("2.2.2").data }, by decide, rfl⟩

end VisualManual
